import Mathlib

/-!
Shallow embedding of `syncmap.go` (package `syncmap`): a sharded string-keyed
map.  Go's `interface{}` values are modelled as `Option α` (with `none`
playing the role of Go's `nil`), a Go `map[string]interface{}` as an
association list with at most one binding per key, and the shard slice as a
`List`.  The per-shard `sync.RWMutex` is not modelled: every claim below is
about sequential executions (no concurrent mutation), where each locked
accessor is equivalent to its map operation.
-/

namespace Syncmap

/-- The bytes of a string's UTF-8 encoding, as naturals.  Go's `key[i]`
indexes the bytes of the UTF-8 representation of `key`. -/
def strBytes (s : String) : List Nat :=
  (s.data.flatMap String.utf8EncodeChar).map UInt8.toNat

/-- `defaultShardCount int = 128`. -/
def defaultShardCount : Nat := 128

/-- One iteration of the loop body of `fnv32`: `hash *= prime32; hash ^= uint32(key[i])`,
on 32-bit unsigned arithmetic (`% 2 ^ 32` is the wraparound; the byte is
already below `2 ^ 32`, the `% 2 ^ 32` on it is the `uint32` conversion). -/
def fnv32Step (hash b : Nat) : Nat :=
  ((hash * 16777619) % 2 ^ 32) ^^^ (b % 2 ^ 32)

/-- `func fnv32(key string) uint32`: FNV-1a-style hash, seed `2166136261`,
prime `16777619`, over the bytes of `key`. -/
def fnv32 (key : String) : Nat :=
  (strBytes key).foldl fnv32Step 2166136261

/-- Go map lookup `items[key]`: the value of the (unique) binding of `key`,
searching from the front of the association list. -/
def mapLookup (items : List (String × Option α)) (key : String) : Option (Option α) :=
  match items with
  | [] => none
  | (k, v) :: rest => if k = key then some v else mapLookup rest key

/-- Go map write `items[key] = val`: overwrite the binding if present,
otherwise add one. -/
def mapInsert (items : List (String × Option α)) (key : String) (val : Option α) :
    List (String × Option α) :=
  match items with
  | [] => [(key, val)]
  | (k, v) :: rest =>
    if k = key then (key, val) :: rest else (k, v) :: mapInsert rest key val

/-- Go map removal `delete(items, key)`: remove the (unique) binding of `key`
if present. -/
def mapRemove (items : List (String × Option α)) (key : String) :
    List (String × Option α) :=
  match items with
  | [] => []
  | (k, v) :: rest => if k = key then rest else (k, v) :: mapRemove rest key

/-- `type ShardMap struct { items map[string]interface{}; sync.RWMutex }`.
The mutex carries no sequential state and is not modelled. -/
structure ShardMap (α : Type) where
  items : List (String × Option α)
deriving DecidableEq

/-- `func (sd *ShardMap) GetItems() map[string]interface{}`. -/
def ShardMap.GetItems (sd : ShardMap α) : List (String × Option α) :=
  sd.items

/-- `func (sd *ShardMap) GetNotLock(key string) (interface{}, bool)`:
`v, ok := sd.items[key]; return v, ok` (a missing key yields the zero value
`nil`, i.e. `none`, and `false`). -/
def ShardMap.GetNotLock (sd : ShardMap α) (key : String) : Option α × Bool :=
  match mapLookup sd.items key with
  | some v => (v, true)
  | none => (none, false)

/-- `func (sd *ShardMap) SetNotLock(key string, val interface{})`. -/
def ShardMap.SetNotLock (sd : ShardMap α) (key : String) (val : Option α) : ShardMap α :=
  ⟨mapInsert sd.items key val⟩

/-- `func (sd *ShardMap) DeleteNotLock(key string)`. -/
def ShardMap.DeleteNotLock (sd : ShardMap α) (key : String) : ShardMap α :=
  ⟨mapRemove sd.items key⟩

/-- `GetWithLock`: same map operation as `GetNotLock` under the shard's read
lock (no-op sequentially). -/
def ShardMap.GetWithLock (sd : ShardMap α) (key : String) : Option α × Bool :=
  sd.GetNotLock key

/-- `SetWithLock`: same map operation as `SetNotLock` under the write lock. -/
def ShardMap.SetWithLock (sd : ShardMap α) (key : String) (val : Option α) : ShardMap α :=
  sd.SetNotLock key val

/-- `DeleteWithLock`: same map operation as `DeleteNotLock` under the write lock. -/
def ShardMap.DeleteWithLock (sd : ShardMap α) (key : String) : ShardMap α :=
  sd.DeleteNotLock key

/-- `type SyncMap struct { shardCount int; shards []*ShardMap }`. -/
structure SyncMap (α : Type) where
  shardCount : Nat
  shards : List (ShardMap α)
deriving DecidableEq

/-- `func NewWithShard(shardCount int) *SyncMap`: a zero count falls back to
the default; every shard starts with an empty map. -/
def NewWithShard (α : Type) (shardCount : Nat) : SyncMap α :=
  let sc := if shardCount = 0 then defaultShardCount else shardCount
  { shardCount := sc, shards := List.replicate sc ⟨[]⟩ }

/-- `func New() *SyncMap`. -/
def New (α : Type) : SyncMap α :=
  NewWithShard α defaultShardCount

/-- The index computed by `locate`: `fnv32(key) & uint32(m.shardCount-1)`.
For `1 ≤ shardCount`, the `int`-to-`uint32` conversion of `shardCount - 1`
is reduction modulo `2 ^ 32`, written here on naturals. -/
def SyncMap.locateIdx (m : SyncMap α) (key : String) : Nat :=
  fnv32 key &&& ((m.shardCount - 1) % 2 ^ 32)

/-- `func (m *SyncMap) locate(key string) *ShardMap`: the shard at
`locateIdx` (Go indexes the shard slice; for the well-formed states below
the index is always in range, see `SyncMap.locateIdx_lt_length`). -/
def SyncMap.locate (m : SyncMap α) (key : String) : ShardMap α :=
  m.shards.getD (m.locateIdx key) ⟨[]⟩

/-- `func (m *SyncMap) GetShards() []*ShardMap`. -/
def SyncMap.GetShards (m : SyncMap α) : List (ShardMap α) :=
  m.shards

/-- `func (m *SyncMap) Get(key string) (value interface{}, ok bool)`:
read the located shard's map under its read lock. -/
def SyncMap.Get (m : SyncMap α) (key : String) : Option α × Bool :=
  match mapLookup (m.locate key).items key with
  | some v => (v, true)
  | none => (none, false)

/-- `func (m *SyncMap) GetJoinKey(key ...string)`: `strings.Join(key[:], "-")`
then `Get`. -/
def SyncMap.GetJoinKey (m : SyncMap α) (key : List String) : Option α × Bool :=
  m.Get (String.intercalate "-" key)

/-- `func (m *SyncMap) Set(key string, value interface{})`: write into the
located shard's map under its write lock. -/
def SyncMap.Set (m : SyncMap α) (key : String) (value : Option α) : SyncMap α :=
  { m with
    shards := m.shards.set (m.locateIdx key) ⟨mapInsert (m.locate key).items key value⟩ }

/-- `func (m *SyncMap) Delete(key string)`: remove from the located shard's
map under its write lock. -/
def SyncMap.Delete (m : SyncMap α) (key : String) : SyncMap α :=
  { m with
    shards := m.shards.set (m.locateIdx key) ⟨mapRemove (m.locate key).items key⟩ }

/-- `func (m *SyncMap) Has(key string) bool`: `_, ok := m.Get(key); return ok`. -/
def SyncMap.Has (m : SyncMap α) (key : String) : Bool :=
  (m.Get key).2

/-- `func (m *SyncMap) Size() int`: `size := 0`, then `size += len(shard.items)`
shard by shard. -/
def SyncMap.Size (m : SyncMap α) : Nat :=
  m.shards.foldl (fun size sd => size + sd.items.length) 0

/-- The loop of `Flush`: shard by shard, add the map's length to the running
total and replace the map with a fresh empty one. -/
def flushLoop (shards : List (ShardMap α)) (size : Nat) : Nat × List (ShardMap α) :=
  match shards with
  | [] => (size, [])
  | sd :: rest =>
    let r := flushLoop rest (size + sd.items.length)
    (r.1, (⟨[]⟩ : ShardMap α) :: r.2)

/-- `func (m *SyncMap) Flush() int`: returns the total length removed and the
container with every shard's map replaced by an empty one. -/
def SyncMap.Flush (m : SyncMap α) : Nat × SyncMap α :=
  let r := flushLoop m.shards 0
  (r.1, { m with shards := r.2 })

/-- Outcome of `Pop` in the sequential model. `panicked` is
`panic("syncmap: map is empty")`; `spinning` means the supplied random shard
indices were exhausted with every pick hitting an empty shard (the Go loop
would keep drawing new random indices). -/
inductive PopResult (α : Type) where
  | panicked
  | spinning
  | popped (key : String) (value : Option α) (m : SyncMap α)
deriving DecidableEq

/-- The retry loop of `Pop`, with the stream of `rand.Intn(n)` draws made
explicit as `picks`: on the first pick whose shard is non-empty, take the
first entry the map range yields (the head of the association list), delete
it, and return the updated container. -/
def popLoop (m : SyncMap α) (picks : List Nat) : PopResult α :=
  match picks with
  | [] => .spinning
  | idx :: rest =>
    let shard := m.shards.getD idx ⟨[]⟩
    match shard.items with
    | [] => popLoop m rest
    | (key, value) :: _ =>
      .popped key value { m with shards := m.shards.set idx ⟨mapRemove shard.items key⟩ }

/-- `func (m *SyncMap) Pop() (string, interface{})`: panic when `Size() == 0`,
otherwise run the random retry loop. -/
def SyncMap.Pop (m : SyncMap α) (picks : List Nat) : PopResult α :=
  if m.Size = 0 then .panicked else popLoop m picks

/-- `type Item struct { Key string; Value interface{} }`. -/
structure Item (α : Type) where
  Key : String
  Value : Option α
deriving DecidableEq

/-- The inner loop shared by `EachKeyWithBreak` and `EachItemWithBreak`,
over the elements of one shard: invoke `iter` on each element in order; on
the first `false`, break.  Returns the list of elements `iter` was invoked
on, and whether the `stop` flag was raised. -/
def visitLoop (iter : β → Bool) (elems : List β) : List β × Bool :=
  match elems with
  | [] => ([], false)
  | e :: rest =>
    if iter e then
      let r := visitLoop iter rest
      (e :: r.1, r.2)
    else ([e], true)

/-- The outer loop shared by `EachKeyWithBreak` and `EachItemWithBreak`:
shard by shard (each shard contributing its list of elements), run the inner
loop; when the `stop` flag is raised, skip all subsequent shards.  Returns
the full list of elements the visitor was invoked on. -/
def breakLoop (iter : β → Bool) (shardElems : List (List β)) : List β :=
  match shardElems with
  | [] => []
  | es :: rest =>
    let r := visitLoop iter es
    if r.2 then r.1 else r.1 ++ breakLoop iter rest

/-- The keys of one shard in traversal order (`for key := range shard.items`). -/
def shardKeys (sd : ShardMap α) : List String :=
  sd.items.map Prod.fst

/-- The items of one shard in traversal order
(`for key, value := range shard.items`, bundled as `&Item{key, value}`). -/
def shardItems (sd : ShardMap α) : List (Item α) :=
  sd.items.map (fun p => ⟨p.1, p.2⟩)

/-- The sequence of keys `EachKeyWithBreak(iter)` invokes `iter` on. -/
def SyncMap.EachKeyWithBreakTrace (m : SyncMap α) (iter : String → Bool) : List String :=
  breakLoop iter (m.shards.map shardKeys)

/-- The sequence of items `EachItemWithBreak(iter)` invokes `iter` on. -/
def SyncMap.EachItemWithBreakTrace (m : SyncMap α) (iter : Item α → Bool) : List (Item α) :=
  breakLoop iter (m.shards.map shardItems)

/-- The sequence of items `EachItem(iter)` invokes `iter` on: `EachItem`
wraps its visitor as `func(item) bool { iter(item); return true }` and calls
`EachItemWithBreak`, so the trace is that of the always-`true` visitor. -/
def SyncMap.EachItemTrace (m : SyncMap α) : List (Item α) :=
  breakLoop (fun _ => true) (m.shards.map shardItems)

/-- All entries of the container in traversal order (shard by shard,
each shard's map in its range order). -/
def SyncMap.entries (m : SyncMap α) : List (Item α) :=
  (m.shards.map shardItems).flatten

/-- All keys of the container in traversal order. -/
def SyncMap.allKeys (m : SyncMap α) : List String :=
  (m.shards.map shardKeys).flatten

/-- Well-formedness of a container state, as established by `NewWithShard`
and preserved by every operation: the shard slice has exactly `shardCount`
shards, the count is positive and fits in `uint32`, and every shard's
association list has at most one binding per key (it models a Go map). -/
def SyncMap.WF (m : SyncMap α) : Prop :=
  m.shards.length = m.shardCount ∧ 0 < m.shardCount ∧ m.shardCount ≤ 2 ^ 32 ∧
    ∀ sd ∈ m.shards, (sd.items.map Prod.fst).Nodup

instance (m : SyncMap α) [DecidableEq α] : Decidable m.WF := by
  unfold SyncMap.WF; infer_instance

/-- A keyed mutating operation on the container, for stating persistence of
`Get` across sequences of operations on other keys. -/
inductive Op (α : Type) where
  | set (key : String) (value : Option α)
  | del (key : String)

/-- The key an operation addresses. -/
def Op.key : Op α → String
  | .set k _ => k
  | .del k => k

/-- Apply one operation. -/
def SyncMap.applyOp (m : SyncMap α) : Op α → SyncMap α
  | .set k v => m.Set k v
  | .del k => m.Delete k

/-- Apply a sequence of operations, oldest first. -/
def SyncMap.applyOps (m : SyncMap α) (ops : List (Op α)) : SyncMap α :=
  ops.foldl SyncMap.applyOp m

/-! ### Association-list (Go map) lemmas -/

theorem mapLookup_mapInsert_self (its : List (String × Option α)) (k : String) (v : Option α) :
    mapLookup (mapInsert its k v) k = some v := by
  induction its with
  | nil => simp [mapInsert, mapLookup]
  | cons p rest ih =>
    obtain ⟨k0, v0⟩ := p
    by_cases h : k0 = k
    · simp [mapInsert, mapLookup, h]
    · simp [mapInsert, mapLookup, h, ih]

theorem mapLookup_mapInsert_ne (its : List (String × Option α)) {k k' : String}
    (v' : Option α) (h : k' ≠ k) :
    mapLookup (mapInsert its k' v') k = mapLookup its k := by
  have h' : ¬k = k' := fun hh => h hh.symm
  induction its with
  | nil => simp [mapInsert, mapLookup, h, h']
  | cons p rest ih =>
    obtain ⟨k0, v0⟩ := p
    by_cases h0 : k0 = k'
    · subst h0
      simp [mapInsert, mapLookup, h, h']
    · by_cases h1 : k0 = k <;> simp [mapInsert, mapLookup, h, h0, h1, h', ih]

theorem mapLookup_eq_none_of_not_mem (its : List (String × Option α)) {k : String}
    (h : k ∉ its.map Prod.fst) : mapLookup its k = none := by
  induction its with
  | nil => rfl
  | cons p rest ih =>
    obtain ⟨k0, v0⟩ := p
    simp only [List.map_cons, List.mem_cons, not_or] at h
    have hk0 : ¬k0 = k := fun hh => h.1 hh.symm
    simp [mapLookup, hk0, ih h.2]

theorem mapLookup_mapRemove_self (its : List (String × Option α)) {k : String}
    (hnd : (its.map Prod.fst).Nodup) : mapLookup (mapRemove its k) k = none := by
  induction its with
  | nil => rfl
  | cons p rest ih =>
    obtain ⟨k0, v0⟩ := p
    simp only [List.map_cons, List.nodup_cons] at hnd
    by_cases h : k0 = k
    · subst h
      simp only [mapRemove, if_pos rfl]
      exact mapLookup_eq_none_of_not_mem rest hnd.1
    · simp [mapRemove, mapLookup, h, ih hnd.2]

theorem mapLookup_mapRemove_ne (its : List (String × Option α)) {k k' : String}
    (h : k' ≠ k) : mapLookup (mapRemove its k') k = mapLookup its k := by
  have h' : ¬k = k' := fun hh => h hh.symm
  induction its with
  | nil => rfl
  | cons p rest ih =>
    obtain ⟨k0, v0⟩ := p
    by_cases h0 : k0 = k'
    · subst h0
      simp [mapRemove, mapLookup, h, h']
    · by_cases h1 : k0 = k <;> simp [mapRemove, mapLookup, h, h0, h1, h', ih]

/-! ### `List.getD` lemmas for the shard slice -/

theorem getD_set_self (l : List β) (i : Nat) (x d : β) (h : i < l.length) :
    (l.set i x).getD i d = x := by
  simp [List.getD, List.getElem?_set_self, h]

theorem getD_set_ne (l : List β) {i j : Nat} (x d : β) (h : i ≠ j) :
    (l.set i x).getD j d = l.getD j d := by
  simp [List.getD, List.getElem?_set_ne h]

theorem getD_eq_default (l : List β) {i : Nat} (d : β) (h : l.length ≤ i) :
    l.getD i d = d := by
  simp [List.getD, List.getElem?_eq_none h]

theorem getD_replicate (n i : Nat) (x : β) : (List.replicate n x).getD i x = x := by
  induction n generalizing i with
  | zero => simp [List.getD]
  | succ n ih =>
    cases i with
    | zero => rfl
    | succ i => exact ih i

/-! ### Hash and routing lemmas -/

theorem foldl_fnv32Step_lt (bs : List Nat) :
    ∀ h : Nat, h < 2 ^ 32 → bs.foldl fnv32Step h < 2 ^ 32 := by
  induction bs with
  | nil => intro h hh; simpa using hh
  | cons b rest ih =>
    intro h hh
    refine ih _ ?_
    exact Nat.xor_lt_two_pow (Nat.mod_lt _ (by norm_num)) (Nat.mod_lt _ (by norm_num))

theorem fnv32_lt (key : String) : fnv32 key < 2 ^ 32 :=
  foldl_fnv32Step_lt (strBytes key) 2166136261 (by norm_num)

theorem SyncMap.locateIdx_lt_length (m : SyncMap α) (key : String)
    (hlen : m.shards.length = m.shardCount) (hpos : 0 < m.shardCount) :
    m.locateIdx key < m.shards.length := by
  have h1 : m.locateIdx key ≤ (m.shardCount - 1) % 2 ^ 32 := Nat.and_le_right
  have h2 : (m.shardCount - 1) % 2 ^ 32 ≤ m.shardCount - 1 := Nat.mod_le _ _
  omega

/-! ### `Get` after `Set`/`Delete` -/

theorem SyncMap.get_eq (m : SyncMap α) (k : String) :
    m.Get k =
      match mapLookup (m.shards.getD (m.locateIdx k) ⟨[]⟩).items k with
      | some v => (v, true)
      | none => (none, false) := rfl

theorem SyncMap.locateIdx_set (m : SyncMap α) (k' : String) (v' : Option α) (key : String) :
    (m.Set k' v').locateIdx key = m.locateIdx key := rfl

theorem SyncMap.locateIdx_delete (m : SyncMap α) (k' key : String) :
    (m.Delete k').locateIdx key = m.locateIdx key := rfl

theorem SyncMap.shards_set (m : SyncMap α) (k' : String) (v' : Option α) :
    (m.Set k' v').shards =
      m.shards.set (m.locateIdx k')
        ⟨mapInsert (m.shards.getD (m.locateIdx k') ⟨[]⟩).items k' v'⟩ := rfl

theorem SyncMap.shards_delete (m : SyncMap α) (k' : String) :
    (m.Delete k').shards =
      m.shards.set (m.locateIdx k')
        ⟨mapRemove (m.shards.getD (m.locateIdx k') ⟨[]⟩).items k'⟩ := rfl

theorem SyncMap.get_set_self (m : SyncMap α) (k : String) (v : Option α)
    (hlen : m.shards.length = m.shardCount) (hpos : 0 < m.shardCount) :
    (m.Set k v).Get k = (v, true) := by
  have hlt : m.locateIdx k < m.shards.length := m.locateIdx_lt_length k hlen hpos
  simp only [SyncMap.get_eq, SyncMap.locateIdx_set, SyncMap.shards_set,
    getD_set_self _ _ _ _ hlt, mapLookup_mapInsert_self]

theorem SyncMap.get_set_ne (m : SyncMap α) {k k' : String} (v' : Option α)
    (hne : k' ≠ k) : (m.Set k' v').Get k = m.Get k := by
  by_cases hlt : m.locateIdx k' < m.shards.length
  · by_cases heq : m.locateIdx k' = m.locateIdx k
    · simp only [SyncMap.get_eq, SyncMap.locateIdx_set, SyncMap.shards_set, ← heq,
        getD_set_self _ _ _ _ hlt, mapLookup_mapInsert_ne _ _ hne]
    · simp only [SyncMap.get_eq, SyncMap.locateIdx_set, SyncMap.shards_set,
        getD_set_ne _ _ _ heq]
  · simp only [SyncMap.get_eq, SyncMap.locateIdx_set, SyncMap.shards_set,
      List.set_eq_of_length_le (Nat.le_of_not_lt hlt)]

theorem SyncMap.get_delete_self (m : SyncMap α) (k : String)
    (hnd : ∀ sd ∈ m.shards, (sd.items.map Prod.fst).Nodup) :
    (m.Delete k).Get k = (none, false) := by
  by_cases hlt : m.locateIdx k < m.shards.length
  · have hmem : m.shards.getD (m.locateIdx k) ⟨[]⟩ ∈ m.shards := by
      have hg : m.shards.getD (m.locateIdx k) ⟨[]⟩ = m.shards[m.locateIdx k] := by
        simp [List.getD, List.getElem?_eq_getElem hlt]
      rw [hg]
      exact List.getElem_mem hlt
    simp only [SyncMap.get_eq, SyncMap.locateIdx_delete, SyncMap.shards_delete,
      getD_set_self _ _ _ _ hlt, mapLookup_mapRemove_self _ (hnd _ hmem)]
  · simp only [SyncMap.get_eq, SyncMap.locateIdx_delete, SyncMap.shards_delete,
      List.set_eq_of_length_le (Nat.le_of_not_lt hlt),
      getD_eq_default _ _ (Nat.le_of_not_lt hlt), mapLookup]

theorem SyncMap.get_delete_ne (m : SyncMap α) {k k' : String}
    (hne : k' ≠ k) : (m.Delete k').Get k = m.Get k := by
  by_cases hlt : m.locateIdx k' < m.shards.length
  · by_cases heq : m.locateIdx k' = m.locateIdx k
    · simp only [SyncMap.get_eq, SyncMap.locateIdx_delete, SyncMap.shards_delete, ← heq,
        getD_set_self _ _ _ _ hlt, mapLookup_mapRemove_ne _ hne]
    · simp only [SyncMap.get_eq, SyncMap.locateIdx_delete, SyncMap.shards_delete,
        getD_set_ne _ _ _ heq]
  · simp only [SyncMap.get_eq, SyncMap.locateIdx_delete, SyncMap.shards_delete,
      List.set_eq_of_length_le (Nat.le_of_not_lt hlt)]

theorem SyncMap.get_applyOps_frame (ops : List (Op α)) (m : SyncMap α) (k : String)
    (h : ∀ op ∈ ops, op.key ≠ k) : (m.applyOps ops).Get k = m.Get k := by
  induction ops generalizing m with
  | nil => rfl
  | cons op rest ih =>
    have hop : op.key ≠ k := h op (List.mem_cons_self op rest)
    have hrest : ∀ op' ∈ rest, Op.key op' ≠ k := fun op' hm => h op' (List.mem_cons_of_mem _ hm)
    calc (m.applyOps (op :: rest)).Get k
        = ((m.applyOp op).applyOps rest).Get k := rfl
      _ = (m.applyOp op).Get k := ih _ hrest
      _ = m.Get k := by
          cases op with
          | set k' v' => exact m.get_set_ne v' hop
          | del k' => exact m.get_delete_ne hop

/-! ### `Size` and `Flush` lemmas -/

theorem foldl_size_eq (l : List (ShardMap α)) :
    ∀ n : Nat, l.foldl (fun size sd => size + sd.items.length) n
      = n + (l.map (fun sd => sd.items.length)).sum := by
  induction l with
  | nil => intro n; simp
  | cons sd rest ih =>
    intro n
    simp only [List.foldl_cons, List.map_cons, List.sum_cons, ih]
    omega

theorem SyncMap.size_eq_sum (m : SyncMap α) :
    m.Size = (m.shards.map (fun sd => sd.items.length)).sum := by
  simpa using foldl_size_eq m.shards 0

theorem sumLen_set (l : List (ShardMap α)) :
    ∀ (i : Nat) (x : ShardMap α), i < l.length →
      ((l.set i x).map (fun sd => sd.items.length)).sum
          + (l.getD i ⟨[]⟩).items.length
        = (l.map (fun sd => sd.items.length)).sum + x.items.length := by
  induction l with
  | nil => intro i x h; simp at h
  | cons sd rest ih =>
    intro i x h
    cases i with
    | zero =>
      simp [List.getD]
      omega
    | succ i =>
      have hi : i < rest.length := by simpa using h
      have hih := ih i x hi
      have hset : (sd :: rest).set (i + 1) x = sd :: rest.set i x := rfl
      simp only [hset, List.map_cons, List.sum_cons, List.getD_cons_succ]
      omega

theorem flushLoop_fst (l : List (ShardMap α)) :
    ∀ s : Nat, (flushLoop l s).1 = s + (l.map (fun sd => sd.items.length)).sum := by
  induction l with
  | nil => intro s; simp [flushLoop]
  | cons sd rest ih =>
    intro s
    simp only [flushLoop, ih, List.map_cons, List.sum_cons]
    omega

theorem flushLoop_snd (l : List (ShardMap α)) :
    ∀ s : Nat, (flushLoop l s).2 = l.map (fun _ => (⟨[]⟩ : ShardMap α)) := by
  induction l with
  | nil => intro s; rfl
  | cons sd rest ih => intro s; simp only [flushLoop, ih, List.map_cons]

/-! ### Iteration-trace lemmas -/

theorem visitLoop_true (es : List β) : visitLoop (fun _ => true) es = (es, false) := by
  induction es with
  | nil => rfl
  | cons e rest ih => simp [visitLoop, ih]

theorem breakLoop_true (ls : List (List β)) :
    breakLoop (fun _ => true) ls = ls.flatten := by
  induction ls with
  | nil => rfl
  | cons es rest ih => simp [breakLoop, visitLoop_true, ih]

theorem visitLoop_front (iter : β → Bool) (es : List β) :
    ∃ t, es = (visitLoop iter es).1 ++ t := by
  induction es with
  | nil => exact ⟨[], rfl⟩
  | cons e rest ih =>
    by_cases h : iter e = true
    · obtain ⟨t, ht⟩ := ih
      exact ⟨t, by simp [visitLoop, h]; exact ht⟩
    · simp only [Bool.not_eq_true] at h
      exact ⟨rest, by simp [visitLoop, h]⟩

theorem visitLoop_no_stop (iter : β → Bool) (es : List β)
    (h : (visitLoop iter es).2 = false) :
    (visitLoop iter es).1 = es ∧ ∀ e ∈ es, iter e = true := by
  induction es with
  | nil => exact ⟨rfl, by simp⟩
  | cons e rest ih =>
    by_cases he : iter e = true
    · simp only [visitLoop, he, if_true] at h ⊢
      obtain ⟨h1, h2⟩ := ih h
      refine ⟨by simp [h1], ?_⟩
      intro x hx
      rcases List.mem_cons.mp hx with hx | hx
      · exact hx ▸ he
      · exact h2 x hx
    · simp only [Bool.not_eq_true] at he
      simp [visitLoop, he] at h

theorem visitLoop_stop (iter : β → Bool) (es : List β)
    (h : (visitLoop iter es).2 = true) :
    ∃ ys y, (visitLoop iter es).1 = ys ++ [y] ∧ (∀ e ∈ ys, iter e = true)
      ∧ iter y = false := by
  induction es with
  | nil => simp [visitLoop] at h
  | cons e rest ih =>
    by_cases he : iter e = true
    · simp only [visitLoop, he, if_true] at h ⊢
      obtain ⟨ys, y, h1, h2, h3⟩ := ih h
      refine ⟨e :: ys, y, by simp [h1], ?_, h3⟩
      intro x hx
      rcases List.mem_cons.mp hx with hx | hx
      · exact hx ▸ he
      · exact h2 x hx
    · simp only [Bool.not_eq_true] at he
      exact ⟨[], e, by simp [visitLoop, he], by simp, he⟩

theorem breakLoop_front (iter : β → Bool) (ls : List (List β)) :
    ∃ t, ls.flatten = breakLoop iter ls ++ t := by
  induction ls with
  | nil => exact ⟨[], rfl⟩
  | cons es rest ih =>
    obtain ⟨t0, ht0⟩ := visitLoop_front iter es
    by_cases hs : (visitLoop iter es).2 = true
    · refine ⟨t0 ++ rest.flatten, ?_⟩
      simp only [breakLoop, hs, if_true, List.flatten_cons]
      calc es ++ rest.flatten
          = ((visitLoop iter es).1 ++ t0) ++ rest.flatten := by rw [← ht0]
        _ = (visitLoop iter es).1 ++ (t0 ++ rest.flatten) := by simp
    · simp only [Bool.not_eq_true] at hs
      obtain ⟨t1, ht1⟩ := ih
      refine ⟨t1, ?_⟩
      simp only [breakLoop, hs, Bool.false_eq_true, if_false, List.flatten_cons]
      rw [(visitLoop_no_stop iter es hs).1, ht1]
      simp

theorem breakLoop_dropLast (iter : β → Bool) (ls : List (List β)) :
    ∀ x ∈ (breakLoop iter ls).dropLast, iter x = true := by
  induction ls with
  | nil => simp [breakLoop]
  | cons es rest ih =>
    by_cases hs : (visitLoop iter es).2 = true
    · obtain ⟨ys, y, h1, h2, h3⟩ := visitLoop_stop iter es hs
      simp only [breakLoop, hs, if_true, h1]
      intro x hx
      rw [List.dropLast_concat] at hx
      exact h2 x hx
    · simp only [Bool.not_eq_true] at hs
      obtain ⟨h1, h2⟩ := visitLoop_no_stop iter es hs
      simp only [breakLoop, hs, Bool.false_eq_true, if_false, h1]
      intro x hx
      by_cases hr : breakLoop iter rest = []
      · rw [hr, List.append_nil] at hx
        exact h2 x (List.mem_of_mem_dropLast hx)
      · rw [List.dropLast_append_of_ne_nil _ hr] at hx
        rcases List.mem_append.mp hx with hx | hx
        · exact h2 x hx
        · exact ih x hx

/-! ### `Pop` lemmas -/

theorem popLoop_popped (m : SyncMap α) (picks : List Nat) (k : String) (v : Option α)
    (m' : SyncMap α) (h : popLoop m picks = .popped k v m') :
    Item.mk k v ∈ m.entries ∧ m'.Size + 1 = m.Size := by
  induction picks with
  | nil => simp [popLoop] at h
  | cons idx rest ih =>
    cases hit : (m.shards.getD idx ⟨[]⟩).items with
    | nil =>
      simp only [popLoop, hit] at h
      exact ih h
    | cons p tail =>
      obtain ⟨k0, v0⟩ := p
      have hidx : idx < m.shards.length := by
        by_contra hge
        rw [getD_eq_default _ _ (Nat.le_of_not_lt hge)] at hit
        simp at hit
      simp only [popLoop, hit, mapRemove, eq_self_iff_true, if_true] at h
      cases h
      constructor
      · have hsh : m.shards.getD idx ⟨[]⟩ ∈ m.shards := by
          have hg : m.shards.getD idx ⟨[]⟩ = m.shards[idx] := by
            simp [List.getD, List.getElem?_eq_getElem hidx]
          rw [hg]
          exact List.getElem_mem hidx
        refine List.mem_flatten.mpr ⟨shardItems (m.shards.getD idx ⟨[]⟩), ?_, ?_⟩
        · exact List.mem_map_of_mem shardItems hsh
        · rw [shardItems, hit]
          exact List.mem_cons_self _ _
      · have hsum := sumLen_set m.shards idx ⟨tail⟩ hidx
        rw [hit] at hsum
        simp only [SyncMap.size_eq_sum]
        simp only [List.length_cons] at hsum
        omega

/-! ### Traversal-order bookkeeping -/

theorem SyncMap.allKeys_eq (m : SyncMap α) : m.allKeys = m.entries.map Item.Key := by
  simp only [SyncMap.allKeys, SyncMap.entries, List.map_flatten, List.map_map]
  have hfun : shardKeys (α := α) = List.map Item.Key ∘ shardItems := by
    funext sd
    simp [shardKeys, shardItems, Function.comp, List.map_map]
  rw [hfun]

/-! ### `Get` on a fresh container -/

theorem get_new (sc : Nat) (k : String) :
    (NewWithShard α sc).Get k = (none, false) := by
  rw [SyncMap.get_eq]
  have h0 : (NewWithShard α sc).shards.getD ((NewWithShard α sc).locateIdx k) ⟨[]⟩
      = (⟨[]⟩ : ShardMap α) := getD_replicate _ _ _
  rw [h0]
  rfl

/-! ### Claim theorems -/

/-- C1: after `Set(k, v)`, `Get(k)` returns `(v, true)`, and this persists
across any sequence of `Set`/`Delete` operations addressed to other keys
(until a `Delete(k)` or overwriting `Set(k, _)`); moreover a single `Set` or
`Delete` on a different key never changes `Get(k)`'s result. -/
theorem c1_set_get_persists (m : SyncMap α) (k k' : String) (v v' : Option α)
    (ops : List (Op α)) (hwf : m.WF) (havoid : ∀ op ∈ ops, op.key ≠ k)
    (hne : k' ≠ k) :
    ((m.Set k v).applyOps ops).Get k = (v, true) ∧
    (m.Set k' v').Get k = m.Get k ∧
    (m.Delete k').Get k = m.Get k := by
  obtain ⟨hlen, hpos, _, _⟩ := hwf
  refine ⟨?_, m.get_set_ne v' hne, m.get_delete_ne hne⟩
  rw [SyncMap.get_applyOps_frame ops _ k havoid]
  exact m.get_set_self k v hlen hpos

/-- Witness for C1: shard count 4; set "a"→7, then set "b"→1 and delete "c";
`Get "a"` still returns `(7, true)`, and one-step frames hold. -/
theorem c1_witness :
    (NewWithShard Nat 4).WF ∧
    (∀ op ∈ ([Op.set "b" (some 1), Op.del "c"] : List (Op Nat)), op.key ≠ "a") ∧
    ("b" ≠ "a") ∧
    ((((NewWithShard Nat 4).Set "a" (some 7)).applyOps
        [Op.set "b" (some 1), Op.del "c"]).Get "a" = (some 7, true) ∧
      ((NewWithShard Nat 4).Set "b" (some 8)).Get "a" = (NewWithShard Nat 4).Get "a" ∧
      ((NewWithShard Nat 4).Delete "b").Get "a" = (NewWithShard Nat 4).Get "a") :=
  ⟨by decide, by decide, by decide,
    c1_set_get_persists (NewWithShard Nat 4) "a" "b" (some 7) (some 8)
      [Op.set "b" (some 1), Op.del "c"] (by decide) (by decide) (by decide)⟩

/-- C2: the router hashes the key's bytes with the FNV-1a loop
(seed 2166136261, prime 16777619, per byte multiply-then-xor, all modulo
`2 ^ 32`) and masks the hash with `shardCount - 1`; for a power-of-two shard
count the resulting index lies in `[0, shardCount)`, and two containers with
the same shard count route the key identically (determinism). -/
theorem c2_router_masks_fnv32 (m m₂ : SyncMap α) (key : String) (j : Nat)
    (hsc : m.shardCount = 2 ^ j) (hsc₂ : m₂.shardCount = m.shardCount) :
    fnv32 key = (strBytes key).foldl
        (fun hash b => ((hash * 16777619) % 2 ^ 32) ^^^ (b % 2 ^ 32)) 2166136261 ∧
    m.locateIdx key = fnv32 key &&& ((m.shardCount - 1) % 2 ^ 32) ∧
    m.locateIdx key < m.shardCount ∧
    m₂.locateIdx key = m.locateIdx key := by
  refine ⟨rfl, rfl, ?_, ?_⟩
  · rcases le_or_lt j 32 with hj | hj
    · have hle : 2 ^ j ≤ 2 ^ 32 := Nat.pow_le_pow_right (by norm_num) hj
      have hmask : (2 ^ j - 1) % 2 ^ 32 = 2 ^ j - 1 := Nat.mod_eq_of_lt (by omega)
      rw [SyncMap.locateIdx, hsc, hmask, Nat.and_pow_two_sub_one_eq_mod]
      exact Nat.mod_lt _ (Nat.pow_pos (by norm_num))
    · have hsplit : 2 ^ j = 2 ^ 32 * 2 ^ (j - 32) := by
        rw [← pow_add]
        congr 1
        omega
      obtain ⟨b, hb⟩ : ∃ b, 2 ^ (j - 32) = b + 1 :=
        ⟨2 ^ (j - 32) - 1, by have := Nat.pow_pos (n := j - 32) (by norm_num : 0 < 2); omega⟩
      have hmask : (2 ^ j - 1) % 2 ^ 32 = 2 ^ 32 - 1 := by
        rw [hsplit, hb, Nat.mul_add, Nat.mul_one]
        have hrw : 2 ^ 32 * b + 2 ^ 32 - 1 = (2 ^ 32 - 1) + 2 ^ 32 * b := by omega
        rw [hrw, Nat.add_mul_mod_self_left]
        exact Nat.mod_eq_of_lt (by norm_num)
      have hfl : fnv32 key < 2 ^ 32 := fnv32_lt key
      rw [SyncMap.locateIdx, hsc, hmask, Nat.and_pow_two_sub_one_eq_mod,
        Nat.mod_eq_of_lt hfl]
      calc fnv32 key < 2 ^ 32 := hfl
        _ ≤ 2 ^ j := Nat.pow_le_pow_right (by norm_num) (by omega)
  · rw [SyncMap.locateIdx, SyncMap.locateIdx, hsc₂]

/-- Witness for C2: shard count `4 = 2 ^ 2`; the index of "a" is below 4 and
agrees with that of a second container with the same shard count. -/
theorem c2_witness :
    ((NewWithShard Nat 4).shardCount = 2 ^ 2) ∧
    (((NewWithShard Nat 4).Set "x" none).shardCount = (NewWithShard Nat 4).shardCount) ∧
    (fnv32 "a" = (strBytes "a").foldl
        (fun hash b => ((hash * 16777619) % 2 ^ 32) ^^^ (b % 2 ^ 32)) 2166136261 ∧
      (NewWithShard Nat 4).locateIdx "a"
          = fnv32 "a" &&& (((NewWithShard Nat 4).shardCount - 1) % 2 ^ 32) ∧
      (NewWithShard Nat 4).locateIdx "a" < (NewWithShard Nat 4).shardCount ∧
      ((NewWithShard Nat 4).Set "x" none).locateIdx "a"
          = (NewWithShard Nat 4).locateIdx "a") :=
  ⟨by decide, by decide,
    c2_router_masks_fnv32 (NewWithShard Nat 4) ((NewWithShard Nat 4).Set "x" none)
      "a" 2 (by decide) (by decide)⟩

/-- C3: with no concurrent mutation, `EachItem` invokes its visitor exactly
once for each entry of the container: its invocation trace is precisely the
entry list, and when the container's keys are duplicate-free every entry
occurs exactly once in the trace. -/
theorem c3_eachItem_visits_each_once (m : SyncMap α) [DecidableEq α]
    (hnd : m.allKeys.Nodup) :
    m.EachItemTrace = m.entries ∧
    ∀ e ∈ m.entries, m.EachItemTrace.count e = 1 := by
  have h1 : m.EachItemTrace = m.entries := breakLoop_true _
  refine ⟨h1, ?_⟩
  intro e he
  rw [h1]
  have hk : (m.entries.map Item.Key).Nodup := by
    rw [← SyncMap.allKeys_eq]
    exact hnd
  exact List.count_eq_one_of_mem (List.Nodup.of_map Item.Key hk) he

/-- Witness for C3: a container with entries "a"→1 and "b"→2 in distinct
shards; the trace equals the entry list and counts each entry once. -/
theorem c3_witness :
    (((NewWithShard Nat 4).Set "a" (some 1)).Set "b" (some 2)).allKeys.Nodup ∧
    ((((NewWithShard Nat 4).Set "a" (some 1)).Set "b" (some 2)).EachItemTrace
        = (((NewWithShard Nat 4).Set "a" (some 1)).Set "b" (some 2)).entries ∧
      ∀ e ∈ (((NewWithShard Nat 4).Set "a" (some 1)).Set "b" (some 2)).entries,
        (((NewWithShard Nat 4).Set "a" (some 1)).Set "b" (some 2)).EachItemTrace.count e
          = 1) :=
  ⟨by decide,
    c3_eachItem_visits_each_once (((NewWithShard Nat 4).Set "a" (some 1)).Set "b" (some 2))
      (by decide)⟩

/-- C4: whenever `Pop` returns (rather than panicking or still spinning), the
container was non-empty, the returned pair was present immediately before the
call, and the size afterwards is exactly one less than before. -/
theorem c4_pop_removes_exactly_one (m : SyncMap α) (picks : List Nat) (k : String)
    (v : Option α) (m' : SyncMap α) (h : m.Pop picks = .popped k v m') :
    m.Size ≠ 0 ∧ Item.mk k v ∈ m.entries ∧ m'.Size + 1 = m.Size := by
  unfold SyncMap.Pop at h
  by_cases hz : m.Size = 0
  · rw [if_pos hz] at h
    cases h
  · rw [if_neg hz] at h
    obtain ⟨h1, h2⟩ := popLoop_popped m picks k v m' h
    exact ⟨hz, h1, h2⟩

/-- Witness for C4: a two-shard container holding only "a"→5; the random
draws first hit the empty shard, then shard 0; `Pop` removes "a". -/
theorem c4_witness :
    (((NewWithShard Nat 2).Set "a" (some 5)).Pop [1, 0]
        = PopResult.popped "a" (some 5) ⟨2, [⟨[]⟩, ⟨[]⟩]⟩) ∧
    (((NewWithShard Nat 2).Set "a" (some 5)).Size ≠ 0 ∧
      Item.mk "a" (some 5) ∈ ((NewWithShard Nat 2).Set "a" (some 5)).entries ∧
      (⟨2, [⟨[]⟩, ⟨[]⟩]⟩ : SyncMap Nat).Size + 1
        = ((NewWithShard Nat 2).Set "a" (some 5)).Size) :=
  ⟨by decide,
    c4_pop_removes_exactly_one ((NewWithShard Nat 2).Set "a" (some 5)) [1, 0]
      "a" (some 5) ⟨2, [⟨[]⟩, ⟨[]⟩]⟩ (by decide)⟩

/-- C5: `Pop` on an empty container panics (`"syncmap: map is empty"`)
synchronously, whatever random draws would follow; since the check precedes
the loop, no shard is touched and the container is unchanged. -/
theorem c5_pop_empty_panics (m : SyncMap α) (picks : List Nat)
    (h : m.Size = 0) : m.Pop picks = .panicked := by
  unfold SyncMap.Pop
  rw [if_pos h]

/-- Witness for C5: a fresh two-shard container has size 0 and `Pop` panics. -/
theorem c5_witness :
    (NewWithShard Nat 2).Size = 0 ∧
    (NewWithShard Nat 2).Pop [0, 1, 0] = PopResult.panicked :=
  ⟨by decide, c5_pop_empty_panics (NewWithShard Nat 2) [0, 1, 0] (by decide)⟩

/-- C6: `Flush` returns the pre-flush total entry count, every shard's map is
replaced by an empty one, and `Size` is 0 immediately afterwards. -/
theorem c6_flush_returns_size_then_empty (m : SyncMap α) :
    m.Flush.1 = m.Size ∧ m.Flush.2.Size = 0 ∧
    ∀ sd ∈ m.Flush.2.shards, sd.items = [] := by
  have h2 : m.Flush.2.shards = m.shards.map (fun _ => (⟨[]⟩ : ShardMap α)) :=
    flushLoop_snd m.shards 0
  refine ⟨?_, ?_, ?_⟩
  · rw [SyncMap.size_eq_sum]
    simpa using flushLoop_fst m.shards 0
  · rw [SyncMap.size_eq_sum, h2, List.map_map]
    have hc : ((fun sd : ShardMap α => sd.items.length) ∘ fun _ : ShardMap α =>
        (⟨[]⟩ : ShardMap α)) = fun _ => 0 := rfl
    rw [hc]
    simp
  · intro sd hsd
    rw [h2] at hsd
    obtain ⟨_, _, rfl⟩ := List.mem_map.mp hsd
    rfl

/-- Witness for C6: flushing a container holding "a"→1 and "b"→2 returns 2,
leaves size 0 and every shard empty. -/
theorem c6_witness :
    ((((NewWithShard Nat 4).Set "a" (some 1)).Set "b" (some 2)).Flush.1
        = (((NewWithShard Nat 4).Set "a" (some 1)).Set "b" (some 2)).Size ∧
      (((NewWithShard Nat 4).Set "a" (some 1)).Set "b" (some 2)).Flush.2.Size = 0 ∧
      ∀ sd ∈ (((NewWithShard Nat 4).Set "a" (some 1)).Set "b" (some 2)).Flush.2.shards,
        sd.items = []) :=
  c6_flush_returns_size_then_empty (((NewWithShard Nat 4).Set "a" (some 1)).Set "b" (some 2))

/-- C7: in `EachKeyWithBreak` and `EachItemWithBreak` the visited elements
form an initial segment of the traversal order (so nothing in the current
shard past the stopping point, nor in any later shard, is visited), and every
visited element except possibly the last got visitor result `true` — i.e. as
soon as the visitor returns `false`, no further element is visited. -/
theorem c7_break_stops_traversal (m : SyncMap α) (f : String → Bool)
    (g : Item α → Bool) :
    (∃ t, m.allKeys = m.EachKeyWithBreakTrace f ++ t) ∧
    (∀ k ∈ (m.EachKeyWithBreakTrace f).dropLast, f k = true) ∧
    (∃ t, m.entries = m.EachItemWithBreakTrace g ++ t) ∧
    (∀ e ∈ (m.EachItemWithBreakTrace g).dropLast, g e = true) :=
  ⟨breakLoop_front f _, breakLoop_dropLast f _,
    breakLoop_front g _, breakLoop_dropLast g _⟩

/-- Witness for C7: a visitor that rejects everything on a two-entry
container — the trace is an initial segment and all but its last element
(vacuously) passed the visitor. -/
theorem c7_witness :
    (∃ t, (((NewWithShard Nat 4).Set "a" (some 1)).Set "b" (some 2)).allKeys
        = (((NewWithShard Nat 4).Set "a" (some 1)).Set "b" (some 2)).EachKeyWithBreakTrace
            (fun _ => false) ++ t) ∧
    (∀ k ∈ ((((NewWithShard Nat 4).Set "a" (some 1)).Set "b" (some 2)).EachKeyWithBreakTrace
        (fun _ => false)).dropLast, (fun (_ : String) => false) k = true) ∧
    (∃ t, (((NewWithShard Nat 4).Set "a" (some 1)).Set "b" (some 2)).entries
        = (((NewWithShard Nat 4).Set "a" (some 1)).Set "b" (some 2)).EachItemWithBreakTrace
            (fun it => it.Key == "b") ++ t) ∧
    (∀ e ∈ ((((NewWithShard Nat 4).Set "a" (some 1)).Set "b" (some 2)).EachItemWithBreakTrace
        (fun it => it.Key == "b")).dropLast, (fun (it : Item Nat) => it.Key == "b") e = true) :=
  c7_break_stops_traversal (((NewWithShard Nat 4).Set "a" (some 1)).Set "b" (some 2))
    (fun _ => false) (fun it => it.Key == "b")

/-- C8: a key never set (fresh container) or just deleted reads as
`(nil, false)` — absence is signalled only through the found flag — and
operations on other keys preserve that result. -/
theorem c8_absent_key_reads_false (sc : Nat) (m : SyncMap α) (k k' : String)
    (v' : Option α) (hnd : ∀ sd ∈ m.shards, (sd.items.map Prod.fst).Nodup)
    (hne : k' ≠ k) :
    (NewWithShard α sc).Get k = (none, false) ∧
    (m.Delete k).Get k = (none, false) ∧
    (m.Set k' v').Get k = m.Get k ∧
    (m.Delete k').Get k = m.Get k :=
  ⟨get_new sc k, m.get_delete_self k hnd, m.get_set_ne v' hne, m.get_delete_ne hne⟩

/-- Witness for C8: "a" is absent in a fresh container and after deletion
from a container that held it; setting or deleting "b" leaves `Get "a"`
untouched. -/
theorem c8_witness :
    (∀ sd ∈ ((NewWithShard Nat 4).Set "a" (some 1)).shards,
      (sd.items.map Prod.fst).Nodup) ∧
    ("b" ≠ "a") ∧
    ((NewWithShard Nat 4).Get "a" = (none, false) ∧
      (((NewWithShard Nat 4).Set "a" (some 1)).Delete "a").Get "a" = (none, false) ∧
      (((NewWithShard Nat 4).Set "a" (some 1)).Set "b" (some 2)).Get "a"
        = ((NewWithShard Nat 4).Set "a" (some 1)).Get "a" ∧
      (((NewWithShard Nat 4).Set "a" (some 1)).Delete "b").Get "a"
        = ((NewWithShard Nat 4).Set "a" (some 1)).Get "a") :=
  ⟨by decide, by decide,
    c8_absent_key_reads_false 4 ((NewWithShard Nat 4).Set "a" (some 1)) "a" "b"
      (some 2) (by decide) (by decide)⟩

/-- C9: `GetJoinKey` returns exactly what `Get` returns on the parts joined
with "-"; in particular `GetJoinKey "user" "42"` behaves like
`Get "user-42"`. -/
theorem c9_getjoinkey_delegates (m : SyncMap α) (parts : List String) :
    m.GetJoinKey parts = m.Get (String.intercalate "-" parts) ∧
    m.GetJoinKey ["user", "42"] = m.Get "user-42" := by
  constructor
  · rfl
  · have h : String.intercalate "-" ["user", "42"] = "user-42" := by decide
    rw [SyncMap.GetJoinKey, h]

/-- Witness for C9 at a concrete container and parts list. -/
theorem c9_witness :
    (NewWithShard Nat 4).GetJoinKey ["x", "y"]
        = (NewWithShard Nat 4).Get (String.intercalate "-" ["x", "y"]) ∧
    (NewWithShard Nat 4).GetJoinKey ["user", "42"] = (NewWithShard Nat 4).Get "user-42" :=
  c9_getjoinkey_delegates (NewWithShard Nat 4) ["x", "y"]

/-- C10: a stored nil value (`none`) is present: after `Set(k, nil)`, `Get(k)`
returns `(nil, true)` and `Has(k)` is `true`, while an absent key reads
`(nil, false)` with `Has` `false` — presence is determined solely by the
found flag. -/
theorem c10_nil_value_is_present (m : SyncMap α) (k : String) (sc : Nat)
    (hwf : m.WF) :
    (m.Set k none).Get k = (none, true) ∧ (m.Set k none).Has k = true ∧
    (NewWithShard α sc).Get k = (none, false) ∧
    (NewWithShard α sc).Has k = false := by
  obtain ⟨hlen, hpos, _, _⟩ := hwf
  have h1 := m.get_set_self k none hlen hpos
  have h2 := get_new (α := α) sc k
  exact ⟨h1, by rw [SyncMap.Has, h1], h2, by rw [SyncMap.Has, h2]⟩

/-- Witness for C10: storing nil under "a" makes it present with value nil;
a fresh container reports it absent. -/
theorem c10_witness :
    (NewWithShard Nat 4).WF ∧
    (((NewWithShard Nat 4).Set "a" none).Get "a" = (none, true) ∧
      ((NewWithShard Nat 4).Set "a" none).Has "a" = true ∧
      (NewWithShard Nat 4).Get "a" = (none, false) ∧
      (NewWithShard Nat 4).Has "a" = false) :=
  ⟨by decide, c10_nil_value_is_present (NewWithShard Nat 4) "a" 4 (by decide)⟩

end Syncmap
